import Mathlib

/-!
Verification of the markdown-rendering utilities of this repository
(`src/utils/mod.rs`): anchor-id generation, link rewriting for the
standalone and print rendering modes, fenced-code info-string cleaning,
and the two-pass footnote collator.

The Rust code is shallowly embedded: strings are Lean `String`s and all
computations are structural recursions over `List Char`, so that every
definition evaluates by kernel reduction.  Rust `HashMap`s whose
iteration order the code never relies on (footnote numbers, footnote
definitions, the id counter) are embedded as association lists in
insertion order.  Regexes are embedded by their matching semantics on
the inputs the code feeds them (link destinations, which contain no
newline: pulldown-cmark never produces a destination with a raw
newline).
-/

namespace MdBook

/-- Rust `char::to_ascii_lowercase`: lowers only the ASCII uppercase
letters, every other character (including non-ASCII uppercase letters
such as `Ü`) is returned unchanged. -/
def rustToAsciiLower (c : Char) : Char :=
  if 'A' ≤ c ∧ c ≤ 'Z' then Char.ofNat (c.toNat + 32) else c

/-- Rust `char::is_whitespace`: the Unicode `White_Space` property.
Unlike `Char.isWhitespace` of Lean core this is the exact (finite)
Unicode set. -/
def rustIsWhitespace (c : Char) : Bool :=
  c.toNat = 0x09 || c.toNat = 0x0A || c.toNat = 0x0B || c.toNat = 0x0C ||
  c.toNat = 0x0D || c.toNat = 0x20 || c.toNat = 0x85 || c.toNat = 0xA0 ||
  c.toNat = 0x1680 || (0x2000 ≤ c.toNat && c.toNat ≤ 0x200A) ||
  c.toNat = 0x2028 || c.toNat = 0x2029 || c.toNat = 0x202F ||
  c.toNat = 0x205F || c.toNat = 0x3000

/-- Rust `char::is_alphanumeric` (Unicode `Alphabetic` or `Nd`/`Nl`/`No`).
Exact on the ASCII range; of the non-ASCII alphanumeric code points only
the ones this development evaluates concretely are listed (both are in
the Unicode `Alphabetic` class). -/
def rustIsAlphanumeric (c : Char) : Bool :=
  c.isAlphanum || c = 'Ü' || c = 'ü'

/-- The per-character closure of `normalize_id`. -/
def normChar (ch : Char) : Option Char :=
  if rustIsAlphanumeric ch || ch = '_' || ch = '-' then
    some (rustToAsciiLower ch)
  else if rustIsWhitespace ch then some '-'
  else none

/-- `normalize_id` from `src/utils/mod.rs`: keep alphanumeric characters,
`_` and `-` (ASCII-lowercasing them), turn whitespace into `-`, drop
everything else. -/
def normalize_id (content : String) : String :=
  ⟨content.data.filterMap normChar⟩

/-- One step of the lazy-regex scan `(<.*?>)`: the characters before the
closing `>` of a tag opened at the current position.  `.` does not match
a newline, so the closing `>` must come before any newline. -/
def tagBody (cs : List Char) : List Char :=
  cs.takeWhile (fun d => !(d = '>' || d = '\n'))

/-- Fuel-driven scan implementing `Regex::replace_all` for the lazy
pattern `(<.*?>)` with an empty replacement: each `<` that has a `>`
later on the same line is removed together with everything up to the
first such `>`.  The fuel is the input length, so the fuel never runs
out on the initial call. -/
def stripTagsGo : Nat → List Char → List Char
  | _, [] => []
  | 0, cs => cs
  | fuel + 1, c :: rest =>
    if c = '<' then
      if (rest.drop (tagBody rest).length).head? = some '>' then
        stripTagsGo fuel (rest.drop ((tagBody rest).length + 1))
      else c :: stripTagsGo fuel rest
    else c :: stripTagsGo fuel rest

/-- The `HTML.replace_all(&content, "")` step of `id_from_content`. -/
def stripTags (s : String) : String :=
  ⟨stripTagsGo s.data.length s.data⟩

/-- Fuel-driven `str::replace`: replaces every non-overlapping leftmost
occurrence of `pat` by `rep`.  Only called with non-empty patterns; the
fuel is the input length. -/
def replaceGo (pat rep : List Char) : Nat → List Char → List Char
  | _, [] => []
  | 0, cs => cs
  | fuel + 1, c :: rest =>
    if pat.isPrefixOf (c :: rest) then
      rep ++ replaceGo pat rep fuel ((c :: rest).drop pat.length)
    else c :: replaceGo pat rep fuel rest

/-- `str::replace` on embedded strings (non-empty pattern). -/
def replaceAllStr (pat rep s : String) : String :=
  ⟨replaceGo pat.data rep.data s.data.length s.data⟩

/-- Rust `str::trim`: drop `char::is_whitespace` characters from both
ends. -/
def trimRust (s : String) : String :=
  ⟨((s.data.dropWhile rustIsWhitespace).reverse.dropWhile rustIsWhitespace).reverse⟩

/-- Rust `str::trim_start_matches('#')`. -/
def dropLeadingHashes (s : String) : String :=
  ⟨s.data.dropWhile (fun c => c = '#')⟩

/-- `id_from_content` from `src/utils/mod.rs`: strip tags and a fixed
set of HTML entity escapes, trim, drop the leading `#` marks of a
heading, trim again, then `normalize_id`. -/
def id_from_content (content : String) : String :=
  let c1 := stripTags content
  let c2 := replaceAllStr "&lt;" "" c1
  let c3 := replaceAllStr "&gt;" "" c2
  let c4 := replaceAllStr "&amp;" "" c3
  let c5 := replaceAllStr "&#39;" "" c4
  let c6 := replaceAllStr "&quot;" "" c5
  normalize_id (trimRust (dropLeadingHashes (trimRust c6)))

/-- Association-list lookup standing in for `HashMap` lookup (the code
never relies on hash-map iteration order where this model is used). -/
def alookup {β : Type} : List (String × β) → String → Option β
  | [], _ => none
  | (k, v) :: tl, key => if k = key then some v else alookup tl key

/-- The id-counter update of `unique_id_from_content`:
`*id_counter.entry(id).or_insert(0) += 1`. -/
def bumpCount : List (String × Nat) → String → List (String × Nat)
  | [], id => [(id, 1)]
  | (k, v) :: tl, id =>
    if k = id then (k, v + 1) :: tl else (k, v) :: bumpCount tl id

/-- The count stored in the id counter for a normalized id (an absent
entry counts as `0`, matching `or_insert(0)`). -/
def countOf (idCounter : List (String × Nat)) (id : String) : Nat :=
  (alookup idCounter id).getD 0

/-- `unique_id_from_content` from `src/utils/mod.rs`: first occurrence
of a normalized id is returned bare, the `k`-th repetition as `id-k`;
the caller-owned counter is returned updated. -/
def unique_id_from_content (content : String) (idCounter : List (String × Nat)) :
    String × List (String × Nat) :=
  let id := id_from_content content
  let idCount := countOf idCounter id
  let uniqueId := if idCount = 0 then id else id ++ "-" ++ toString idCount
  (uniqueId, bumpCount idCounter id)

/-- Substring test, Rust `str::contains` for a literal pattern. -/
def containsSub : List Char → List Char → Bool
  | [], pat => pat.isEmpty
  | c :: rest, pat => pat.isPrefixOf (c :: rest) || containsSub rest pat

/-- Rust `str::ends_with` for a literal pattern. -/
def endsWithL (l pat : List Char) : Bool :=
  l.length ≥ pat.length && l.drop (l.length - pat.length) = pat

/-- Split a character list at every occurrence of `sep`
(the semantics of `str::split` for a one-character pattern). -/
def splitOnChar (sep : Char) : List Char → List (List Char)
  | [] => [[]]
  | c :: rest =>
    let r := splitOnChar sep rest
    if c = sep then [] :: r
    else
      match r with
      | [] => [[c]]
      | h :: t => (c :: h) :: t

/-- Rust `str::split_once` for a one-character pattern: split at the
first occurrence of `sep`, if any. -/
def splitOnceChar (sep : Char) : List Char → Option (List Char × List Char)
  | [] => none
  | c :: rest =>
    if c = sep then some ([], rest)
    else
      match splitOnceChar sep rest with
      | some (a, b) => some (c :: a, b)
      | none => none

/-- `normalize_path` from `src/utils/mod.rs` (Unix paths): resolve `.`
and `..` components the way the Rust loop over `Path::components` does
(`..` pops unless nothing is left to pop, in which case it is kept),
re-add a trailing `/` when the input had one, and strip any leading
`/`.  The Windows-only `\` replacement is a no-op here. -/
def normalize_path (p : String) : String :=
  let endsSlash := p.data.getLast? = some '/'
  let hasRoot := p.data.head? = some '/'
  let comps := (splitOnChar '/' p.data).filter
    (fun c => !c.isEmpty && c ≠ ".".data)
  let stack := comps.foldl
    (fun st c =>
      if c = "..".data then (if st.isEmpty then [c] else st.dropLast)
      else st ++ [c]) []
  let rendered := (if hasRoot then "/".data else []) ++
    List.intercalate "/".data stack
  let rendered :=
    if endsSlash && !rendered.isEmpty && rendered.getLast? ≠ some '/' then
      rendered ++ "/".data
    else rendered
  ⟨rendered.dropWhile (fun c => c = '/')⟩

/-- `normalize_print_page_id` from `src/utils/mod.rs`: `/` and `#`
become `-`, a literal `.html#` becomes a single `-`, the result is
ASCII-lowercased, and a trailing `.html` is dropped.  The single-
character `str::replace` calls are embedded as character maps. -/
def normalize_print_page_id (path : String) : String :=
  let p1 := path.data.map (fun c => if c = '/' then '-' else c)
  let p2 := replaceGo ".html#".data "-".data p1.length p1
  let p3 := p2.map (fun c => if c = '#' then '-' else c)
  let p4 := p3.map rustToAsciiLower
  let p5 := if endsWithL p4 ".html".data then p4.take (p4.length - 5) else p4
  ⟨p5⟩

/-- Character class `[a-z0-9+.-]` of the `SCHEME_LINK` regex. -/
def schemeClass (c : Char) : Bool :=
  ('a' ≤ c && c ≤ 'z') || ('0' ≤ c && c ≤ '9') || c = '+' || c = '.' || c = '-'

/-- `SCHEME_LINK.is_match`: the regex `^[a-z][a-z0-9+.-]*:`.  Since `:`
is not in the starred class, a match exists exactly when the character
after the maximal class run is `:`. -/
def schemeLinkMatch (s : String) : Bool :=
  match s.data with
  | [] => false
  | c :: rest =>
    ('a' ≤ c && c ≤ 'z') && ((rest.dropWhile schemeClass).head? = some ':')

/-- Does position `i` start the `\.(html|md)` part of a `HTML_MD_LINK`
regex match? -/
def isExtAt (cs : List Char) (i : Nat) : Bool :=
  cs.get? i = some '.' &&
    ("html".data.isPrefixOf (cs.drop (i + 1)) ||
     "md".data.isPrefixOf (cs.drop (i + 1)))

/-- Largest position below `n` at which `\.(html|md)` can match. -/
def lastExtAux (cs : List Char) : Nat → Option Nat
  | 0 => none
  | j + 1 => if isExtAt cs j then some j else lastExtAux cs j

/-- The capture groups of `HTML_MD_LINK.captures`, the regex
`(?P<link>.*)\.(html|md)(?P<anchor>#.*)?` under leftmost-first
(greedy) semantics: the greedy `.*` makes the match use the last
position at which `\.(html|md)` matches; the optional anchor group then
matches `#` followed by the rest of the line.  Faithful for
destinations without a newline (pulldown-cmark link destinations never
contain one).  Returns the `link` capture and the `anchor` capture
(empty when absent). -/
def htmlMdCaptures (cs : List Char) : Option (List Char × List Char) :=
  match lastExtAux cs cs.length with
  | none => none
  | some i =>
    let extLen := if "html".data.isPrefixOf (cs.drop (i + 1)) then 4 else 2
    let rest := cs.drop (i + 1 + extLen)
    let anchor :=
      if rest.head? = some '#' then rest.takeWhile (fun c => c ≠ '\n') else []
    some (cs.take i, anchor)

/-- Rust `Path::parent` rendered as a string, for the relative,
slash-separated page paths this code handles (no trailing slash):
everything before the last `/`, or the empty string when there is
none. -/
def parentDir (p : String) : String :=
  match splitOnceChar '/' p.data.reverse with
  | some (_, after) => ⟨after.reverse⟩
  | none => ""

/-- `add_base` from `adjust_links`: the directory of the current page,
with a trailing `/`, or empty in standalone mode or for a page at the
book root. -/
def add_base (path : Option String) : String :=
  match path with
  | some p =>
    let base := parentDir p
    if base = "" then "" else base ++ "/"
  | none => ""

/-- Truncation of a trailing `.md`, as done on `path.display()` before
deriving a print-page id. -/
def stripMdSuffix (p : String) : String :=
  if endsWithL p.data ".md".data then ⟨p.data.take (p.data.length - 3)⟩ else p

/-- The print-page id of a page path (the computation duplicated in the
fragment-only branch of `fix_a_links`, in the `<a name>` branch of
`fix_html`, and in `add_footnote_defs`): drop a `.md` suffix,
path-normalize, then `normalize_print_page_id`. -/
def pagePrintId (p : String) : String :=
  normalize_print_page_id (normalize_path (stripMdSuffix p))

/-- `dest.replace("#", "-")`, a single-character replace embedded as a
character map. -/
def replaceHash (dest : String) : String :=
  ⟨dest.data.map (fun c => if c = '#' then '-' else c)⟩

/-- Rust `str::trim_matches('/')`. -/
def trimSlashes (s : String) : String :=
  ⟨((s.data.dropWhile (fun c => c = '/')).reverse.dropWhile
      (fun c => c = '/')).reverse⟩

/-- Rust `str::trim_start_matches('/')`. -/
def dropLeadingSlashes (s : String) : String :=
  ⟨s.data.dropWhile (fun c => c = '/')⟩

/-- Rust `str::eq_ignore_ascii_case`. -/
def eqIgnoreAsciiCase (a b : String) : Bool :=
  a.data.map rustToAsciiLower = b.data.map rustToAsciiLower

/-- Does a redirect-table entry with source `original` match the
normalized destination (`fix_print_page_link`'s loop guard)? -/
def redirectHit (normalizedPath pathNoFragment original : String) : Bool :=
  eqIgnoreAsciiCase (normalize_path (dropLeadingSlashes original)) normalizedPath ||
  eqIgnoreAsciiCase (normalize_path (dropLeadingSlashes original)) pathNoFragment

/-- The body of `fix_print_page_link`'s redirect loop for the first
matching entry: `Sum.inl` is the early return taken for a
scheme-prefixed redirect target, `Sum.inr` the re-normalized path the
loop breaks with. -/
def applyRedirect (pathNoFragment : String) (fragment : Option String)
    (original redirect : String) : Sum String String :=
  let unnormalized :=
    if schemeLinkMatch redirect then redirect
    else
      let base := parentDir pathNoFragment
      let normalizedBase := trimSlashes (normalize_path base)
      if normalizedBase ≠ "" then normalizedBase ++ "/" ++ redirect
      else dropLeadingSlashes redirect
  let unnormalized :=
    if !('#' ∈ original.data) then
      match fragment with
      | some f =>
        if !('#' ∈ unnormalized.data) then unnormalized ++ "#" ++ f
        else unnormalized ++ "-" ++ f
      | none => unnormalized
    else unnormalized
  if schemeLinkMatch redirect then Sum.inl unnormalized
  else Sum.inr (normalize_path unnormalized)

/-- The redirect loop of `fix_print_page_link`: the first matching
entry is applied and the loop breaks (the Rust code iterates a
`HashMap` in arbitrary order; the embedding fixes the list order,
which the verified claims do not depend on). -/
def redirectLoop (normalizedPath pathNoFragment : String)
    (fragment : Option String) : List (String × String) → Sum String String
  | [] => Sum.inr normalizedPath
  | (original, redirect) :: tl =>
    if redirectHit normalizedPath pathNoFragment original then
      applyRedirect pathNoFragment fragment original redirect
    else redirectLoop normalizedPath pathNoFragment fragment tl

/-- `fix_print_page_link` from `adjust_links`: apply at most one
redirect, keep paths that still escape the book (`../`) as they are,
and turn everything else into a `#`-anchor named by the print-page
id. -/
def fix_print_page_link (normalizedPath : String)
    (redirects : List (String × String)) : String :=
  let pnf :=
    match splitOnceChar '#' normalizedPath.data with
    | some (a, b) => ((⟨a⟩ : String), some (⟨b⟩ : String))
    | none => (normalizedPath, none)
  match redirectLoop normalizedPath pnf.1 pnf.2 redirects with
  | Sum.inl early => early
  | Sum.inr np =>
    if "../".data.isPrefixOf np.data || containsSub np.data "/../".data then np
    else "#" ++ normalize_print_page_id np

/-- `fix_a_links` from `adjust_links`: rewrite a link destination.
Fragment-only destinations are page-id-prefixed in print mode; scheme
destinations pass through; `.md`/`.html` destinations get the `.html`
extension; in print mode in-book destinations become print-page
anchors, possibly through the redirect table. -/
def fix_a_links (dest : String) (path : Option String)
    (redirects : List (String × String)) : String :=
  if dest.data.head? = some '#' then
    match path with
    | some p => "#" ++ pagePrintId p ++ replaceHash dest
    | none => dest
  else if schemeLinkMatch dest then dest
  else
    let fixedStart := if dest.data.head? = some '/' then "" else add_base path
    let fixedLink :=
      match htmlMdCaptures dest.data with
      | some (link, anchor) =>
        fixedStart ++ (⟨link⟩ : String) ++ ".html" ++ (⟨anchor⟩ : String)
      | none => fixedStart ++ dest
    let np := normalize_path fixedLink
    if !("../".data.isPrefixOf np.data || containsSub np.data "/../".data) then
      match path with
      | some _ => fix_print_page_link np redirects
      | none => fixedLink
    else fixedLink

/-- `fix_resource_links` from `adjust_links`: image (and `<img src>`)
destinations keep schemes and absolute paths, relative ones are
prefixed with the current page's directory. -/
def fix_resource_links (dest : String) (path : Option String) : String :=
  if schemeLinkMatch dest || dest.data.head? = some '/' then dest
  else add_base path ++ dest

/-- The pulldown-cmark events the footnote collator and the code-fence
cleaner distinguish.  `text` stands for any event the collator passes
through unchanged, `html` for a raw-HTML event (also the ones the
collator fabricates), `parEnd` for `End(TagEnd::Paragraph)` (the event
the back-link placement inspects), and `codeStart` for
`Start(Tag::CodeBlock(Fenced(info)))`. -/
inductive FEvent where
  | text (s : String)
  | html (s : String)
  | parEnd
  | codeStart (info : String)
  | fnRef (name : String)
  | fnDefStart (name : String)
  | fnDefEnd
deriving DecidableEq, Repr

/-- The info-string normalization of `clean_codeblock_headers`: map
every space and tab to `,`, then drop any remaining whitespace
character. -/
def cleanInfo (info : String) : String :=
  ⟨(info.data.map (fun x => if x = ' ' || x = '\t' then ',' else x)).filter
    (fun ch => !rustIsWhitespace ch)⟩

/-- `clean_codeblock_headers` from `src/utils/mod.rs`: normalize the
info string of a fenced code block, leave every other event alone. -/
def clean_codeblock_headers (e : FEvent) : FEvent :=
  match e with
  | .codeStart info => .codeStart (cleanInfo info)
  | _ => e

/-- `special_escape` from `src/utils/mod.rs`, embedded character by
character (the Rust find-the-next-escapee loop emits exactly one
replacement per escaped character). -/
def escapeChar (c : Char) : String :=
  if c = '<' then "&lt;"
  else if c = '>' then "&gt;"
  else if c = Char.ofNat 39 then "&#39;"
  else if c = Char.ofNat 34 then "&quot;"
  else if c = Char.ofNat 92 then "&#92;"
  else if c = '&' then "&amp;"
  else String.singleton c

/-- `special_escape`: full escaping used for footnote names. -/
def special_escape (s : String) : String :=
  ⟨(s.data.map (fun c => (escapeChar c).data)).flatten⟩

/-- `path.map_or_else(|| Cow::from("<unknown>"), |p| p.to_string_lossy())`. -/
def pathDisplay (path : Option String) : String :=
  match path with
  | some p => p
  | none => "<unknown>"

/-- The `{path:?}` debug rendering of the optional page path. -/
def pathDebug (path : Option String) : String :=
  match path with
  | some p => "Some(\"" ++ p ++ "\")"
  | none => "None"

/-- Warning logged for a nested footnote definition. -/
def nestedMsg (path : Option String) : String :=
  "internal bug: nested footnote not expected in " ++ pathDebug path

/-- Warning logged for a duplicate footnote definition. -/
def dupMsg (path : Option String) (name : String) : String :=
  "footnote `" ++ name ++ "` in " ++ pathDisplay path ++
  " defined multiple times - not updating to new definition"

/-- Warning logged for an unreferenced footnote definition. -/
def unrefMsg (path : Option String) (name : String) : String :=
  "footnote `" ++ name ++ "` in `" ++ pathDisplay path ++
  "` is defined but not referenced"

/-- The superscript reference fragment the collator emits for the
`count`-th reference to footnote `name`, displaying number `n`. -/
def refHtml (name : String) (count n : Nat) : String :=
  "<sup class=\"footnote-reference\" id=\"fr-" ++ name ++ "-" ++
  toString count ++ "\"><a href=\"#footnote-" ++ name ++ "\">" ++
  toString n ++ "</a></sup>"

/-- `footnote_numbers.entry(name).or_insert((len, 0))` followed by
`*count += 1`, where `len` is the map size before the call plus one:
returns the updated map together with the display number and the new
reference count.  The association list keeps first-insertion order, so
its length is the map's size. -/
def bumpRef : List (String × Nat × Nat) → String → Nat →
    List (String × Nat × Nat) × Nat × Nat
  | [], name, len => ([(name, len + 1, 1)], len + 1, 1)
  | (k, n, c) :: tl, name, len =>
    if k = name then ((k, n, c + 1) :: tl, n, c + 1)
    else
      let r := bumpRef tl name len
      ((k, n, c) :: r.1, r.2)

/-- The state threaded through the footnote pass of
`render_markdown_with_path_and_redirects`: `numbers` is
`footnote_numbers` (name ↦ display number × reference count), `defs`
is `footnote_defs`, `inName`/`inBuf` are the
`in_footnote_name`/`in_footnote` locals, and `warnings` records the
`log::warn!` diagnostics. -/
structure FnState where
  numbers : List (String × Nat × Nat)
  defs : List (String × List FEvent)
  inName : String
  inBuf : List FEvent
  warnings : List String
deriving Repr

/-- The empty initial state of the footnote pass. -/
def initFnState : FnState := ⟨[], [], "", [], []⟩

/-- One step of the footnote `filter_map` closure.  Besides the usual
state and optional emitted event it reports, for a footnote reference,
the (escaped name, display number, occurrence index) triple the emitted
`refHtml` fragment is built from — an observation channel used only by
the specification. -/
def fnStep (path : Option String) (st : FnState) (e : FEvent) :
    FnState × Option FEvent × Option (String × Nat × Nat) :=
  match e with
  | .fnDefStart name =>
    let st :=
      if st.inBuf ≠ [] then
        { st with warnings := st.warnings ++ [nestedMsg path] }
      else st
    ({ st with inName := special_escape name }, none, none)
  | .fnDefEnd =>
    let body := st.inBuf
    let name := st.inName
    let st := { st with inBuf := [], inName := "" }
    if (alookup st.defs name).isSome then
      ({ st with warnings := st.warnings ++ [dupMsg path name] }, none, none)
    else
      ({ st with defs := st.defs ++ [(name, body)] }, none, none)
  | .fnRef name =>
    let nm := special_escape name
    let r := bumpRef st.numbers nm st.numbers.length
    let h := FEvent.html (refHtml nm r.2.2 r.2.1)
    if st.inName = "" then
      ({ st with numbers := r.1 }, some h, some (nm, r.2))
    else
      ({ st with numbers := r.1, inBuf := st.inBuf ++ [h] }, none,
        some (nm, r.2))
  | _ =>
    if st.inName ≠ "" then ({ st with inBuf := st.inBuf ++ [e] }, none, none)
    else (st, some e, none)

/-- Result of running the footnote pass: final state, emitted event
stream, and the reference trace (one entry per footnote reference, in
stream order). -/
structure FnRun where
  state : FnState
  out : List FEvent
  trace : List (String × Nat × Nat)
deriving Repr

/-- Run the footnote pass over an event list, starting from an
arbitrary accumulated state. -/
def fnRunFrom (path : Option String) (acc : FnRun) : List FEvent → FnRun
  | [] => acc
  | e :: tl =>
    let r := fnStep path acc.state e
    fnRunFrom path
      ⟨r.1, acc.out ++ r.2.1.toList, acc.trace ++ r.2.2.toList⟩ tl

/-- Run the footnote pass from the initial state. -/
def fnRun (path : Option String) (evs : List FEvent) : FnRun :=
  fnRunFrom path ⟨initFnState, [], []⟩ evs

/-- The `prefix` local of `add_footnote_defs`: the print-page id of the
current page followed by `-`, or empty in standalone mode (or for a
page whose id is empty). -/
def pageIdPfx (path : Option String) : String :=
  match path with
  | some p =>
    let base := pagePrintId p
    if base = "" then "" else base ++ "-"
  | none => ""

/-- The `nth` suffix shown on a back-link (empty for the first
occurrence). -/
def nthStr (usage : Nat) : String :=
  if usage = 1 then "" else toString usage

/-- The back-link fragment appended to a footnote definition for its
`usage`-th reference. -/
def backlinkHtml (pfx name : String) (usage : Nat) : String :=
  " <a href=\"#" ++ pfx ++ "fr-" ++ name ++ "-" ++ toString usage ++
  "\">↩" ++ nthStr usage ++ "</a>"

/-- The `defs.retain`-with-warning pass of `add_footnote_defs`: keep
the definitions whose name is in `numbers`, log one warning per dropped
definition. -/
def retainReferenced (path : Option String) (numbers : List (String × Nat × Nat)) :
    List (String × List FEvent) → List (String × List FEvent) × List String
  | [] => ([], [])
  | d :: tl =>
    let r := retainReferenced path numbers tl
    if (alookup numbers d.1).isSome then (d :: r.1, r.2)
    else (r.1, unrefMsg path d.1 :: r.2)

/-- The sort key of `defs.sort_by_cached_key(|(name, _)| numbers[name].0)`
(every retained definition's name is in `numbers`, so the default never
fires). -/
def numKey (numbers : List (String × Nat × Nat)) (d : String × List FEvent) : Nat :=
  ((alookup numbers d.1).map (fun x => x.1)).getD 0

/-- The retained footnote definitions in appendix order: referenced
ones only, sorted by display number. -/
def appendixDefs (path : Option String) (defs : List (String × List FEvent))
    (numbers : List (String × Nat × Nat)) : List (String × List FEvent) :=
  List.insertionSort (fun a b => numKey numbers a ≤ numKey numbers b)
    (retainReferenced path numbers defs).1

/-- One rendered footnote definition: the `<li>` anchor, the body, one
back-link per reference occurrence (placed inside a trailing paragraph
when there is one, appended otherwise), and the closing `</li>`. -/
def defWithBacklinks (pfx name : String) (count : Nat) (body : List FEvent) :
    List FEvent :=
  let body := FEvent.html ("<li id=\"footnote-" ++ name ++ "\">") :: body
  let body := (List.range' 1 count).foldl
    (fun b usage =>
      let bl := FEvent.html (backlinkHtml pfx name usage)
      if b.getLast? = some FEvent.parEnd then b.dropLast ++ [bl, FEvent.parEnd]
      else b ++ [bl]) body
  body ++ [FEvent.html "</li>\n"]

/-- `add_footnote_defs` from `src/utils/mod.rs`: drop unreferenced
definitions (with a diagnostic each), order the survivors by display
number, and render them as an ordered list with anchors and
back-links.  Returns the appended event stream and the diagnostics. -/
def add_footnote_defs (path : Option String) (defs : List (String × List FEvent))
    (numbers : List (String × Nat × Nat)) : List FEvent × List String :=
  let rw := retainReferenced path numbers defs
  let pfx := pageIdPfx path
  let sorted := appendixDefs path defs numbers
  let out := [FEvent.html "<hr>\n<ol class=\"footnote-definition\">"] ++
    (sorted.map (fun d =>
      defWithBacklinks pfx d.1 (((alookup numbers d.1).map (fun x => x.2)).getD 0)
        d.2)).flatten ++
    [FEvent.html "</ol>"]
  (out, rw.2)

/-- Stated from the claim wording of C3: a destination is
"scheme-prefixed" when a non-empty leading run of ASCII letters is
followed by `:`.  Compared against the code's `SCHEME_LINK` regex,
which only accepts a lowercase first letter. -/
def asciiLetterRunScheme (s : String) : Bool :=
  let run := s.data.takeWhile (fun c => c.isAlpha)
  !run.isEmpty && ((s.data.drop run.length).head? = some ':')

/-- Stated from the claim wording of C9: Unicode lowercasing.  ASCII is
exact; of the non-ASCII letters only the one this file evaluates is
listed (`Ü` lowercases to `ü`). -/
def unicodeToLower (c : Char) : Char :=
  if c = 'Ü' then 'ü'
  else if 'A' ≤ c ∧ c ≤ 'Z' then Char.ofNat (c.toNat + 32)
  else c

/-- Stated from the claim wording of C9: per-character mapping with the
claim's "kept and lowercased" read as full lowercasing. -/
def claimCharMapLower (c : Char) : List Char :=
  if rustIsAlphanumeric c then [unicodeToLower c]
  else if c = '_' || c = '-' then [c]
  else if rustIsWhitespace c then ['-']
  else []

/-- The claim-side normalization of C9 with full lowercasing. -/
def claimNormalizeLower (s : String) : String :=
  ⟨(s.data.map claimCharMapLower).flatten⟩

/-- Stated from the amended claim of C9: per-character mapping with
ASCII lowercasing (non-ASCII letters keep their case). -/
def claimCharMap (c : Char) : List Char :=
  if rustIsAlphanumeric c then [rustToAsciiLower c]
  else if c = '_' || c = '-' then [c]
  else if rustIsWhitespace c then ['-']
  else []

/-- The claim-side normalization of the amended C9: the characters are
mapped independently and concatenated. -/
def claimNormalize (s : String) : String :=
  ⟨(s.data.map claimCharMap).flatten⟩

/-- Stated from the claim wording of C4: the escaped footnote names in
first-reference order, continuing an already-seen accumulator. -/
def firstRefNamesFrom (acc : List String) : List FEvent → List String
  | [] => acc
  | e :: tl =>
    match e with
    | .fnRef name =>
      let nm := special_escape name
      firstRefNamesFrom (if nm ∈ acc then acc else acc ++ [nm]) tl
    | _ => firstRefNamesFrom acc tl

/-- The escaped footnote names in first-reference order. -/
def firstRefNames (evs : List FEvent) : List String :=
  firstRefNamesFrom [] evs

/-- The escaped name of every footnote reference of the stream, in
stream order (with repetitions). -/
def refNames (evs : List FEvent) : List String :=
  evs.filterMap (fun e =>
    match e with
    | .fnRef n => some (special_escape n)
    | _ => none)

/-- Stated from the claim wording of C10: the anchor id carried by the
`k`-th superscript reference to footnote `name`. -/
def refAnchorId (name : String) (k : Nat) : String :=
  "fr-" ++ name ++ "-" ++ toString k

/-- Two footnote states that agree on everything except the warning
log (the only component the page path flows into during the stream
pass). -/
def sameCore (s t : FnState) : Prop :=
  s.numbers = t.numbers ∧ s.defs = t.defs ∧ s.inName = t.inName ∧
  s.inBuf = t.inBuf

theorem alookup_append_left {β : Type} {l : List (String × β)} {k : String}
    {v : β} (l' : List (String × β)) (h : alookup l k = some v) :
    alookup (l ++ l') k = some v := by
  induction l with
  | nil => simp [alookup] at h
  | cons hd tl ih =>
    obtain ⟨k', v'⟩ := hd
    rw [alookup] at h
    rw [List.cons_append, alookup]
    split at h
    · simp_all
    · rw [if_neg (by assumption)]
      exact ih h

theorem alookup_isSome_iff {β : Type} (l : List (String × β)) (k : String) :
    (alookup l k).isSome = true ↔ k ∈ l.map (fun e => e.1) := by
  induction l with
  | nil => simp [alookup]
  | cons hd tl ih =>
    unfold alookup
    by_cases h : hd.1 = k
    · simp [h]
    · simp only [List.map_cons, List.mem_cons]
      rw [if_neg h, ih]
      constructor
      · exact fun hm => Or.inr hm
      · rintro (rfl | hm)
        · exact absurd rfl h
        · exact hm

theorem bumpCount_lookup_self (l : List (String × Nat)) (id : String) :
    alookup (bumpCount l id) id = some (countOf l id + 1) := by
  induction l with
  | nil => simp [bumpCount, alookup, countOf]
  | cons hd tl ih =>
    unfold bumpCount
    by_cases h : hd.1 = id
    · obtain ⟨k, v⟩ := hd
      simp only at h
      simp [h, alookup, countOf]
    · obtain ⟨k, v⟩ := hd
      simp only at h
      rw [if_neg h, alookup, if_neg h]
      rw [ih]
      unfold countOf
      rw [alookup, if_neg h]

theorem bumpCount_lookup_other (l : List (String × Nat)) (id k : String)
    (h : k ≠ id) : alookup (bumpCount l id) k = alookup l k := by
  induction l with
  | nil => simp [bumpCount, alookup, Ne.symm h]
  | cons hd tl ih =>
    unfold bumpCount
    by_cases hh : hd.1 = id
    · obtain ⟨k', v⟩ := hd
      simp only at hh
      subst hh
      simp [alookup, Ne.symm h]
    · obtain ⟨k', v⟩ := hd
      simp only at hh
      rw [if_neg hh, alookup, alookup]
      split
      · rfl
      · exact ih

/-- C8, first part: one call to `unique_id_from_content` never decreases
any stored count. -/
theorem uiic_count_mono (content : String) (counter : List (String × Nat))
    (key : String) :
    countOf counter key ≤ countOf (unique_id_from_content content counter).2 key := by
  show countOf counter key ≤ countOf (bumpCount counter (id_from_content content)) key
  by_cases h : key = id_from_content content
  · rw [h]
    unfold countOf
    rw [bumpCount_lookup_self]
    simp [countOf]
  · unfold countOf
    rw [bumpCount_lookup_other _ _ _ h]

theorem uiic_count_plus_one (content : String) (counter : List (String × Nat)) :
    countOf (unique_id_from_content content counter).2 (id_from_content content) =
      countOf counter (id_from_content content) + 1 := by
  show countOf (bumpCount counter (id_from_content content)) (id_from_content content) = _
  unfold countOf
  rw [bumpCount_lookup_self]
  simp [countOf]

theorem uiic_untouched (content : String) (counter : List (String × Nat))
    (key : String) (h : key ≠ id_from_content content) :
    countOf (unique_id_from_content content counter).2 key = countOf counter key := by
  show countOf (bumpCount counter (id_from_content content)) key = _
  unfold countOf
  rw [bumpCount_lookup_other _ _ _ h]

/-- C8: within one id counter's lifetime the count stored for each
normalized heading text never decreases and is bumped by exactly one at
each call for that text (so suffixes are never reused); and calling
`unique_id_from_content` twice with the same counter and the same
heading text yields the bare id and then `id-1`. -/
theorem spec_C8_theorem :
    (∀ content counter key,
      countOf counter key ≤ countOf (unique_id_from_content content counter).2 key) ∧
    (∀ content counter,
      countOf (unique_id_from_content content counter).2 (id_from_content content) =
        countOf counter (id_from_content content) + 1) ∧
    (∀ content counter, countOf counter (id_from_content content) = 0 →
      (unique_id_from_content content counter).1 = id_from_content content ∧
      (unique_id_from_content content
          (unique_id_from_content content counter).2).1 =
        id_from_content content ++ "-1") := by
  refine ⟨uiic_count_mono, uiic_count_plus_one, ?_⟩
  intro content counter h0
  constructor
  · show (if countOf counter (id_from_content content) = 0 then
        id_from_content content
      else id_from_content content ++ "-" ++
        toString (countOf counter (id_from_content content))) = _
    rw [if_pos h0]
  · show (if countOf (unique_id_from_content content counter).2
          (id_from_content content) = 0 then
        id_from_content content
      else id_from_content content ++ "-" ++
        toString (countOf (unique_id_from_content content counter).2
          (id_from_content content))) = _
    rw [uiic_count_plus_one, h0, if_neg (by simp)]
    rw [String.append_assoc]
    rfl

/-- Witness for C8 on a fresh counter and the heading `## Hello World`. -/
theorem spec_C8_witness :
    countOf [] (id_from_content "## Hello World") = 0 ∧
    (unique_id_from_content "## Hello World" []).1 = "hello-world" ∧
    (unique_id_from_content "## Hello World"
        (unique_id_from_content "## Hello World" []).2).1 = "hello-world-1" := by
  have h0 : countOf ([] : List (String × Nat)) (id_from_content "## Hello World") = 0 := by
    decide
  have hid : id_from_content "## Hello World" = "hello-world" := by decide
  obtain ⟨h1, h2⟩ := spec_C8_theorem.2.2 "## Hello World" [] h0
  refine ⟨h0, ?_, ?_⟩
  · rw [h1, hid]
  · rw [h2, hid]
    rfl

theorem claimCharMap_eq_normChar (c : Char) :
    claimCharMap c = (normChar c).toList := by
  by_cases h2 : c = '_'
  · subst h2; decide
  · by_cases h3 : c = '-'
    · subst h3; decide
    · by_cases h1 : rustIsAlphanumeric c
      · simp [claimCharMap, normChar, h1]
      · cases hw : rustIsWhitespace c with
        | true => simp [claimCharMap, normChar, h1, h2, h3, hw]
        | false => simp [claimCharMap, normChar, h1, h2, h3, hw]

theorem filterMap_normChar_eq (l : List Char) :
    l.filterMap normChar = (l.map claimCharMap).flatten := by
  induction l with
  | nil => simp
  | cons c tl ih =>
    rw [List.filterMap_cons, List.map_cons, List.flatten_cons,
      claimCharMap_eq_normChar]
    cases hc : normChar c <;> simp [hc, ih]

/-- C9 counterexample: `normalize_id` keeps the non-ASCII uppercase
letter `Ü` as-is, whereas the claim's "alphanumeric characters are kept
and lowercased" mapping produces `ü`. -/
theorem spec_C9_counterexample :
    normalize_id "Ü" = "Ü" ∧ claimNormalizeLower "Ü" = "ü" ∧
      ¬ normalize_id "Ü" = claimNormalizeLower "Ü" := by
  decide

/-- C9 as amended: `normalize_id` maps each character independently —
alphanumeric characters are kept and ASCII-lowercased (non-ASCII
letters keep their case), `_` and `-` are kept, whitespace becomes
`-`, every other character is dropped. -/
theorem spec_C9_theorem (s : String) : normalize_id s = claimNormalize s := by
  show String.mk (s.data.filterMap normChar) = String.mk ((s.data.map claimCharMap).flatten)
  rw [filterMap_normChar_eq]

theorem cleanInfo_no_whitespace (info : String) (c : Char)
    (h : c ∈ (cleanInfo info).data) : rustIsWhitespace c = false := by
  simp only [cleanInfo, List.mem_filter] at h
  simpa using h.2

theorem cleanInfo_space_tab_only (info : String)
    (h : ∀ c ∈ info.data, rustIsWhitespace c = true → (c = ' ' ∨ c = '\t')) :
    (cleanInfo info).data =
      info.data.map (fun c => if c = ' ' || c = '\t' then ',' else c) := by
  show (info.data.map (fun c => if c = ' ' || c = '\t' then ',' else c)).filter
      (fun ch => !rustIsWhitespace ch) = _
  rw [List.filter_eq_self]
  intro a ha
  rw [List.mem_map] at ha
  obtain ⟨c, hc, rfl⟩ := ha
  by_cases hst : c = ' ' ∨ c = '\t'
  · have : (if c = ' ' || c = '\t' then ',' else c) = ',' := by
      rcases hst with rfl | rfl <;> rfl
    rw [this]
    decide
  · have hc1 : ¬ c = ' ' := fun hx => hst (Or.inl hx)
    have hc2 : ¬ c = '\t' := fun hx => hst (Or.inr hx)
    rw [if_neg (by simp [hc1, hc2])]
    cases hw : rustIsWhitespace c with
    | false => simp
    | true => exact absurd (h c hc hw) hst

/-- C7: the fenced-code info-string normalization leaves no whitespace
character in the result; when the info string's whitespace consists of
spaces and tabs, every one of them (one separator per character of a
run) becomes a `,` and all other characters are kept verbatim in
order; on the claim's concrete input `rust,  no_run , ,property` the
result is `rust,,,no_run,,,,property`. -/
theorem spec_C7_theorem :
    (∀ info c, c ∈ (cleanInfo info).data → rustIsWhitespace c = false) ∧
    (∀ info, (∀ c ∈ info.data, rustIsWhitespace c = true → (c = ' ' ∨ c = '\t')) →
      (cleanInfo info).data =
        info.data.map (fun c => if c = ' ' || c = '\t' then ',' else c)) ∧
    clean_codeblock_headers (FEvent.codeStart "rust,  no_run , ,property") =
      FEvent.codeStart "rust,,,no_run,,,,property" := by
  refine ⟨cleanInfo_no_whitespace, cleanInfo_space_tab_only, ?_⟩
  decide

/-- Witness for C7 at the concrete info string of the claim. -/
theorem spec_C7_witness :
    (cleanInfo "rust,  no_run , ,property").data =
      ("rust,  no_run , ,property" : String).data.map
        (fun c => if c = ' ' || c = '\t' then ',' else c) :=
  spec_C7_theorem.2.1 _ (by decide)

theorem mapHash_eq_self (l : List Char) (h : ¬ '#' ∈ l) :
    l.map (fun c => if c = '#' then '-' else c) = l := by
  induction l with
  | nil => rfl
  | cons c tl ih =>
    simp only [List.mem_cons, not_or] at h
    rw [List.map_cons, if_neg (fun hx => h.1 hx.symm), ih h.2]

theorem replaceHash_hash_free (frag : String) (h : ¬ '#' ∈ frag.data) :
    replaceHash ("#" ++ frag) = "-" ++ frag := by
  apply String.ext
  show (("#" ++ frag).data).map (fun c => if c = '#' then '-' else c) = _
  rw [String.data_append, String.data_append]
  show ('#' :: frag.data).map (fun c => if c = '#' then '-' else c) = '-' :: frag.data
  rw [List.map_cons, if_pos rfl, mapHash_eq_self _ h]

/-- C2: a fragment-only destination `#frag` rendered with a current
page path `p` is rewritten to `#` + print-page id of `p` + `-` + frag;
with no page path (standalone mode) any fragment-only destination is
returned unchanged; and the claim's concrete instance: `#a` from page
`chapter/sub.md` resolves to `#chapter-sub-a`. -/
theorem spec_C2_theorem :
    (∀ (p frag : String) (redirects : List (String × String)),
      ¬ '#' ∈ frag.data →
      fix_a_links ("#" ++ frag) (some p) redirects =
        "#" ++ pagePrintId p ++ "-" ++ frag) ∧
    (∀ (dest : String) (redirects : List (String × String)),
      dest.data.head? = some '#' →
      fix_a_links dest none redirects = dest) ∧
    fix_a_links "#a" (some "chapter/sub.md") [] = "#chapter-sub-a" := by
  refine ⟨?_, ?_, by decide⟩
  · intro p frag redirects h
    have hh : ("#" ++ frag).data.head? = some '#' := by
      rw [String.data_append]; rfl
    unfold fix_a_links
    rw [if_pos hh]
    show "#" ++ pagePrintId p ++ replaceHash ("#" ++ frag) = _
    rw [replaceHash_hash_free frag h]
    simp [String.append_assoc]
  · intro dest redirects h
    unfold fix_a_links
    rw [if_pos h]

/-- Witness for C2 at the concrete inputs of the claim. -/
theorem spec_C2_witness :
    fix_a_links ("#" ++ "a") (some "chapter/sub.md") [] =
      "#" ++ pagePrintId "chapter/sub.md" ++ "-" ++ "a" ∧
    fix_a_links "#z" none [] = "#z" :=
  ⟨spec_C2_theorem.1 _ _ _ (by decide), spec_C2_theorem.2.1 _ _ (by decide)⟩

theorem scheme_head_not (dest : String) (h : schemeLinkMatch dest = true) :
    ¬ dest.data.head? = some '#' := by
  intro hc
  cases hd : dest.data with
  | nil => rw [hd] at hc; exact Option.noConfusion hc
  | cons c rest =>
    unfold schemeLinkMatch at h
    rw [hd] at h hc
    have hc' : c = '#' := by
      simpa using hc
    subst hc'
    simp at h

/-- C3 counterexample: `HTTPS://example.com/` is scheme-prefixed in the
claim's sense (a leading ASCII-letter run followed by `:`), yet in
print mode (page `p.md`) the code rewrites it to the in-page anchor
`#https:-example.com-` instead of leaving it unchanged, because the
`SCHEME_LINK` regex only accepts a lowercase first letter. -/
theorem spec_C3_counterexample :
    asciiLetterRunScheme "HTTPS://example.com/" = true ∧
    fix_a_links "HTTPS://example.com/" (some "p.md") [] = "#https:-example.com-" ∧
    fix_a_links "HTTPS://example.com/" (some "p.md") [] ≠ "HTTPS://example.com/" := by
  refine ⟨by decide, by decide, by decide⟩

/-- C3 as amended: destinations matching the code's `SCHEME_LINK`
regex (`^[a-z][a-z0-9+.-]*:` — a lowercase-letter-led scheme) pass
through `fix_a_links` unchanged in either mode; images with
scheme-matching or absolute (leading `/`) destinations pass through
`fix_resource_links` unchanged. -/
theorem spec_C3_theorem :
    (∀ (dest : String) (path : Option String) (redirects : List (String × String)),
      schemeLinkMatch dest = true → fix_a_links dest path redirects = dest) ∧
    (∀ (dest : String) (path : Option String),
      schemeLinkMatch dest = true ∨ dest.data.head? = some '/' →
      fix_resource_links dest path = dest) := by
  constructor
  · intro dest path redirects h
    unfold fix_a_links
    rw [if_neg (scheme_head_not dest h), if_pos h]
  · intro dest path h
    have hb : (schemeLinkMatch dest || decide (dest.data.head? = some '/')) = true := by
      rcases h with h | h
      · simp [h]
      · simp [h]
    unfold fix_resource_links
    rw [if_pos hb]

theorem isExtAt_of_ge (cs : List Char) (j : Nat) (h : cs.length ≤ j) :
    isExtAt cs j = false := by
  have h0 : cs.get? j = none := List.get?_eq_none.mpr h
  rw [List.get?_eq_getElem?] at h0
  simp [isExtAt, List.get?_eq_getElem?, h0]

theorem lastExtAux_eq (cs : List Char) (k : Nat) :
    ∀ n, k < n → isExtAt cs k = true →
    (∀ j, k < j → isExtAt cs j = false) → lastExtAux cs n = some k := by
  intro n
  induction n with
  | zero => intro h; exact absurd h (Nat.not_lt_zero k)
  | succ m ih =>
    intro hk hat hafter
    unfold lastExtAux
    by_cases hm : k = m
    · subst hm
      rw [if_pos hat]
    · have hkm : k < m := Nat.lt_of_le_of_ne (Nat.le_of_lt_succ hk) hm
      rw [if_neg ?_]
      · exact ih hkm hat hafter
      · rw [hafter m hkm]
        simp

theorem isPrefixOf_append_self (p l : List Char) :
    p.isPrefixOf (p ++ l) = true := by
  induction p with
  | nil => cases l <;> rfl
  | cons a tl ih => simp [List.isPrefixOf, ih]

theorem takeWhile_all {p : Char → Bool} :
    ∀ l : List Char, (∀ a ∈ l, p a = true) → l.takeWhile p = l := by
  intro l h
  induction l with
  | nil => rfl
  | cons a tl ih =>
    rw [List.takeWhile_cons, h a (List.mem_cons_self a tl)]
    rw [ih (fun b hb => h b (List.mem_cons_of_mem a hb))]
    simp

theorem captures_concat (base ext frag : List Char)
    (hext : ext = "html".data ∨ ext = "md".data)
    (hfrag : frag = [] ∨ frag.head? = some '#')
    (hnl : ¬ '\n' ∈ frag)
    (hafter : ∀ j, base.length < j →
      isExtAt (base ++ '.' :: (ext ++ frag)) j = false) :
    htmlMdCaptures (base ++ '.' :: (ext ++ frag)) = some (base, frag) := by
  have hdropBase : (base ++ '.' :: (ext ++ frag)).drop base.length =
      '.' :: (ext ++ frag) := List.drop_left base _
  have hdrop1 : (base ++ '.' :: (ext ++ frag)).drop (base.length + 1) =
      ext ++ frag := by
    rw [← List.drop_drop, hdropBase]
    rfl
  have hat : isExtAt (base ++ '.' :: (ext ++ frag)) base.length = true := by
    unfold isExtAt
    have hget : (base ++ '.' :: (ext ++ frag)).get? base.length = some '.' := by
      rw [List.get?_append_right (Nat.le_refl _), Nat.sub_self]
      rfl
    rw [hget, hdrop1]
    rcases hext with rfl | rfl
    · simp [isPrefixOf_append_self]
    · simp [isPrefixOf_append_self]
  have hlen : base.length < (base ++ '.' :: (ext ++ frag)).length := by
    rw [List.length_append, List.length_cons]
    omega
  have hlast : lastExtAux (base ++ '.' :: (ext ++ frag))
      (base ++ '.' :: (ext ++ frag)).length = some base.length :=
    lastExtAux_eq _ _ _ hlen hat hafter
  have htake : (base ++ '.' :: (ext ++ frag)).take base.length = base :=
    List.take_left base _
  have hanchor : (if frag.head? = some '#' then
      frag.takeWhile (fun c => decide (c ≠ '\n')) else []) = frag := by
    rcases hfrag with rfl | hh
    · rfl
    · rw [if_pos hh, takeWhile_all frag ?_]
      intro a ha
      simp only [decide_eq_true_eq]
      intro hEq
      subst hEq
      exact hnl ha
  unfold htmlMdCaptures
  rcases hext with rfl | rfl
  · have hpre : "html".data.isPrefixOf
        ((base ++ '.' :: ("html".data ++ frag)).drop (base.length + 1)) = true := by
      rw [hdrop1]; exact isPrefixOf_append_self _ _
    have hdropExt : (base ++ '.' :: ("html".data ++ frag)).drop
        (base.length + 1 + 4) = frag := by
      have hsplit : base ++ '.' :: ("html".data ++ frag) =
          (base ++ '.' :: "html".data) ++ frag := by
        simp
      rw [hsplit]
      have hl : (base ++ '.' :: "html".data).length = base.length + 1 + 4 := by
        simp [List.length_append]
      rw [← hl]
      exact List.drop_left _ _
    simp only [hlast, hpre, if_true, hdropExt, htake, hanchor]
  · have hpre : "html".data.isPrefixOf
        ((base ++ '.' :: ("md".data ++ frag)).drop (base.length + 1)) = false := by
      rw [hdrop1]
      rfl
    have hdropExt : (base ++ '.' :: ("md".data ++ frag)).drop
        (base.length + 1 + 2) = frag := by
      have hsplit : base ++ '.' :: ("md".data ++ frag) =
          (base ++ '.' :: "md".data) ++ frag := by
        simp
      rw [hsplit]
      have hl : (base ++ '.' :: "md".data).length = base.length + 1 + 2 := by
        simp [List.length_append]
      rw [← hl]
      exact List.drop_left _ _
    simp only [hlast, hpre, Bool.false_eq_true, if_false, hdropExt, htake, hanchor]

/-- C1 counterexample: `p.md#a.mdx` ends in `.md` followed by the
fragment `#a.mdx`, but standalone rendering produces `p.md#a.html`
(the greedy `HTML_MD_LINK` regex matches the last `.md`-looking
occurrence, here inside the fragment, and drops the trailing text)
instead of the claimed `p.html#a.mdx`. -/
theorem spec_C1_counterexample :
    fix_a_links "p.md#a.mdx" none [] = "p.md#a.html" ∧
    fix_a_links "p.md#a.mdx" none [] ≠ "p.html#a.mdx" := by
  refine ⟨by decide, by decide⟩

/-- C1 as amended: a relative destination `base` + (`.md` or `.html`) +
optional `#fragment` is rewritten in standalone mode to `base` +
`.html` + fragment, provided the extension occurrence being rewritten
is the last `.md`/`.html` occurrence of the destination (in particular
the fragment must not itself contain a `.md`/`.html` occurrence, which
the greedy regex would match instead). -/
theorem spec_C1_theorem (base frag dest : String)
    (redirects : List (String × String)) (isHtml : Bool)
    (hdest : dest = base ++ (if isHtml then ".html" else ".md") ++ frag)
    (hfrag : frag = "" ∨ frag.data.head? = some '#')
    (hnl : ¬ '\n' ∈ frag.data)
    (hbase : ¬ base.data.head? = some '#')
    (hscheme : schemeLinkMatch dest = false)
    (hafter : ∀ j, j < dest.data.length → base.data.length < j →
      isExtAt dest.data j = false) :
    fix_a_links dest none redirects = base ++ ".html" ++ frag := by
  have hdata : dest.data = base.data ++ '.' ::
      ((if isHtml then "html" else "md" : String).data ++ frag.data) := by
    rw [hdest, String.data_append, String.data_append]
    cases isHtml <;> simp
  have hafter' : ∀ j, base.data.length < j →
      isExtAt dest.data j = false := by
    intro j hj
    by_cases hlt : j < dest.data.length
    · exact hafter j hlt hj
    · exact isExtAt_of_ge _ _ (Nat.le_of_not_lt hlt)
  have hext : (if isHtml then "html" else "md" : String).data = "html".data ∨
      (if isHtml then "html" else "md" : String).data = "md".data := by
    cases isHtml
    · exact Or.inr rfl
    · exact Or.inl rfl
  have hfrag' : frag.data = [] ∨ frag.data.head? = some '#' := by
    rcases hfrag with rfl | hh
    · exact Or.inl rfl
    · exact Or.inr hh
  have hcap : htmlMdCaptures dest.data = some (base.data, frag.data) := by
    rw [hdata]
    rw [hdata] at hafter'
    exact captures_concat _ _ _ hext hfrag' hnl hafter'
  have hhead : ¬ dest.data.head? = some '#' := by
    rw [hdata]
    cases hb : base.data with
    | nil =>
      intro hc
      simp at hc
    | cons c tl =>
      intro hc
      apply hbase
      rw [hb]
      simpa using hc
  unfold fix_a_links
  rw [if_neg hhead, if_neg (by simp [hscheme])]
  have hab : add_base none = "" := rfl
  simp only [hcap, hab, ite_self]
  have hmk : ∀ l : List Char, (⟨l⟩ : String) = ⟨l⟩ := fun _ => rfl
  have hfl : ("" : String) ++ (⟨base.data⟩ : String) ++ ".html" ++
      (⟨frag.data⟩ : String) = base ++ ".html" ++ frag := by
    apply String.ext
    simp [String.data_append]
  rw [hfl]

/-- Witness for the amended C1 on `page.md` and `page.md#a`. -/
theorem spec_C1_witness :
    fix_a_links "page.md" none [] = "page" ++ ".html" ++ "" ∧
    fix_a_links "page.md#a" none [] = "page" ++ ".html" ++ "#a" := by
  constructor
  · exact spec_C1_theorem "page" "" "page.md" [] false (by decide)
      (Or.inl rfl) (by decide) (by decide) (by decide)
      (by decide)
  · exact spec_C1_theorem "page" "#a" "page.md#a" [] false (by decide)
      (Or.inr (by decide)) (by decide) (by decide) (by decide)
      (by decide)

theorem bumpRef_nums (ns : List (String × Nat × Nat)) (name : String) (len : Nat) :
    (bumpRef ns name len).1.map (fun e => (e.1, e.2.1)) =
      if (alookup ns name).isSome then ns.map (fun e => (e.1, e.2.1))
      else ns.map (fun e => (e.1, e.2.1)) ++ [(name, len + 1)] := by
  induction ns with
  | nil => simp [bumpRef, alookup]
  | cons hd tl ih =>
    obtain ⟨k, n, c⟩ := hd
    by_cases h : k = name
    · simp [bumpRef, alookup, h]
    · rw [bumpRef, if_neg h, alookup, if_neg h]
      simp only [List.map_cons]
      rw [ih]
      split <;> simp

theorem bumpRef_keys (ns : List (String × Nat × Nat)) (name : String) (len : Nat) :
    (bumpRef ns name len).1.map (fun e => e.1) =
      if (alookup ns name).isSome then ns.map (fun e => e.1)
      else ns.map (fun e => e.1) ++ [name] := by
  induction ns with
  | nil => simp [bumpRef, alookup]
  | cons hd tl ih =>
    obtain ⟨k, n, c⟩ := hd
    by_cases h : k = name
    · simp [bumpRef, alookup, h]
    · rw [bumpRef, if_neg h, alookup, if_neg h]
      simp only [List.map_cons]
      rw [ih]
      split <;> simp

theorem bumpRef_ret (ns : List (String × Nat × Nat)) (name : String) (len : Nat) :
    (bumpRef ns name len).2 =
      match alookup ns name with
      | some p => (p.1, p.2 + 1)
      | none => (len + 1, 1) := by
  induction ns with
  | nil => simp [bumpRef, alookup]
  | cons hd tl ih =>
    obtain ⟨k, n, c⟩ := hd
    by_cases h : k = name
    · simp [bumpRef, alookup, h]
    · rw [bumpRef, if_neg h, alookup, if_neg h]
      simpa using ih

theorem bumpRef_lookup_self (ns : List (String × Nat × Nat)) (name : String)
    (len : Nat) :
    alookup (bumpRef ns name len).1 name = some (bumpRef ns name len).2 := by
  induction ns with
  | nil => simp [bumpRef, alookup]
  | cons hd tl ih =>
    obtain ⟨k, n, c⟩ := hd
    by_cases h : k = name
    · simp [bumpRef, alookup, h]
    · rw [bumpRef, if_neg h]
      simp only [alookup]
      rw [if_neg h]
      simpa using ih

theorem bumpRef_lookup_other (ns : List (String × Nat × Nat)) (name : String)
    (len : Nat) (k : String) (h : k ≠ name) :
    alookup (bumpRef ns name len).1 k = alookup ns k := by
  induction ns with
  | nil =>
    rw [bumpRef]
    simp only [alookup]
    rw [if_neg (Ne.symm h)]
  | cons hd tl ih =>
    obtain ⟨k', n, c⟩ := hd
    by_cases hh : k' = name
    · subst hh
      rw [bumpRef, if_pos rfl]
      simp only [alookup]
      rw [if_neg (fun hx => h hx.symm), if_neg (fun hx => h hx.symm)]
    · rw [bumpRef, if_neg hh]
      simp only [alookup]
      split
      · rfl
      · exact ih

theorem bumpRef_wf (ns : List (String × Nat × Nat)) (name : String)
    (H1 : ∀ k e, ns.get? k = some e → e.2.1 = k + 1) :
    ∀ k e, (bumpRef ns name ns.length).1.get? k = some e → e.2.1 = k + 1 := by
  intro k e he
  have hmap : ((bumpRef ns name ns.length).1.map
      (fun e => (e.1, e.2.1))).get? k = some (e.1, e.2.1) := by
    rw [List.get?_map, he]
    rfl
  rw [bumpRef_nums] at hmap
  by_cases hs : (alookup ns name).isSome
  · rw [if_pos hs, List.get?_map] at hmap
    obtain ⟨e', he', hfe⟩ := Option.map_eq_some'.mp hmap
    have := H1 k e' he'
    have h2 : e'.2.1 = e.2.1 := congrArg Prod.snd hfe
    omega
  · rw [if_neg hs] at hmap
    by_cases hk : k < ns.length
    · rw [List.get?_append (by simpa using hk), List.get?_map] at hmap
      obtain ⟨e', he', hfe⟩ := Option.map_eq_some'.mp hmap
      have := H1 k e' he'
      have h2 : e'.2.1 = e.2.1 := congrArg Prod.snd hfe
      omega
    · have hlen : (ns.map (fun e => (e.1, e.2.1))).length ≤ k := by
        simpa using Nat.le_of_not_lt hk
      rw [List.get?_append_right hlen] at hmap
      simp only [List.length_map] at hmap
      have hk0 : k - ns.length = 0 := by
        rcases Nat.lt_or_ge (k - ns.length) 1 with h1 | h1
        · omega
        · rw [List.get?_eq_none.mpr (by simpa using h1)] at hmap
          exact Option.noConfusion hmap
      rw [hk0] at hmap
      have : (name, ns.length + 1) = (e.1, e.2.1) := by
        simpa using hmap
      have h2 : ns.length + 1 = e.2.1 := congrArg Prod.snd this
      have hke : k = ns.length := by omega
      omega

theorem bumpRef_num_pres (ns : List (String × Nat × Nat)) (name : String)
    (len : Nat) (k : String) (n c : Nat) (h : alookup ns k = some (n, c)) :
    ∃ c', alookup (bumpRef ns name len).1 k = some (n, c') := by
  by_cases hk : k = name
  · subst hk
    rw [bumpRef_lookup_self, bumpRef_ret, h]
    exact ⟨c + 1, rfl⟩
  · rw [bumpRef_lookup_other ns name len k hk, h]
    exact ⟨c, rfl⟩

theorem fnStep_numbers (path : Option String) (st : FnState) (e : FEvent) :
    (fnStep path st e).1.numbers =
      match e with
      | .fnRef name =>
        (bumpRef st.numbers (special_escape name) st.numbers.length).1
      | _ => st.numbers := by
  cases e <;> simp only [fnStep] <;> (try split) <;> rfl

theorem fnStep_trace (path : Option String) (st : FnState) (e : FEvent) :
    (fnStep path st e).2.2 =
      match e with
      | .fnRef name =>
        some (special_escape name,
          (bumpRef st.numbers (special_escape name) st.numbers.length).2)
      | _ => none := by
  cases e <;> simp only [fnStep] <;> (try split) <;> rfl

theorem fnRunFrom_cons (path : Option String) (acc : FnRun) (e : FEvent)
    (tl : List FEvent) :
    fnRunFrom path acc (e :: tl) =
      fnRunFrom path
        ⟨(fnStep path acc.state e).1,
          acc.out ++ (fnStep path acc.state e).2.1.toList,
          acc.trace ++ (fnStep path acc.state e).2.2.toList⟩ tl := rfl

theorem firstRefNamesFrom_cons_ref (acc : List String) (name : String)
    (tl : List FEvent) :
    firstRefNamesFrom acc (FEvent.fnRef name :: tl) =
      firstRefNamesFrom
        (if special_escape name ∈ acc then acc else acc ++ [special_escape name])
        tl := rfl

theorem fnRunFrom_numbers (path : Option String) :
    ∀ (evs : List FEvent) (st : FnState) (out : List FEvent)
      (tr : List (String × Nat × Nat)),
    (∀ k e, st.numbers.get? k = some e → e.2.1 = k + 1) →
    (∀ x ∈ tr, ∃ c, alookup st.numbers x.1 = some (x.2.1, c)) →
    (∀ k e, (fnRunFrom path ⟨st, out, tr⟩ evs).state.numbers.get? k = some e →
        e.2.1 = k + 1) ∧
    (∀ x ∈ (fnRunFrom path ⟨st, out, tr⟩ evs).trace,
        ∃ c, alookup (fnRunFrom path ⟨st, out, tr⟩ evs).state.numbers x.1 =
          some (x.2.1, c)) ∧
    (fnRunFrom path ⟨st, out, tr⟩ evs).state.numbers.map (fun e => e.1) =
      firstRefNamesFrom (st.numbers.map (fun e => e.1)) evs := by
  intro evs
  induction evs with
  | nil =>
    intro st out tr H1 H2
    exact ⟨H1, H2, rfl⟩
  | cons e tl ih =>
    intro st out tr H1 H2
    rw [fnRunFrom_cons]
    have hnum := fnStep_numbers path st e
    have htr := fnStep_trace path st e
    cases e with
    | fnRef name =>
      have hnum' : (fnStep path st (FEvent.fnRef name)).1.numbers =
          (bumpRef st.numbers (special_escape name) st.numbers.length).1 := hnum
      have htr' : (fnStep path st (FEvent.fnRef name)).2.2 =
          some (special_escape name,
            (bumpRef st.numbers (special_escape name) st.numbers.length).2) := htr
      have hwf := bumpRef_wf st.numbers (special_escape name) H1
      rw [← hnum'] at hwf
      have H2' : ∀ x ∈ tr ++ (fnStep path st (FEvent.fnRef name)).2.2.toList,
          ∃ c, alookup (fnStep path st (FEvent.fnRef name)).1.numbers x.1 =
            some (x.2.1, c) := by
        intro x hx
        rw [List.mem_append] at hx
        rcases hx with hx | hx
        · obtain ⟨c, hc⟩ := H2 x hx
          rw [hnum']
          exact bumpRef_num_pres _ _ _ _ _ _ hc
        · rw [htr'] at hx
          simp only [Option.toList_some, List.mem_singleton] at hx
          subst hx
          rw [hnum']
          simp only
          rw [bumpRef_lookup_self]
          exact ⟨(bumpRef st.numbers (special_escape name)
            st.numbers.length).2.2, rfl⟩
      obtain ⟨ih1, ih2, ih3⟩ := ih (fnStep path st (FEvent.fnRef name)).1
        (out ++ (fnStep path st (FEvent.fnRef name)).2.1.toList)
        (tr ++ (fnStep path st (FEvent.fnRef name)).2.2.toList) hwf H2'
      refine ⟨ih1, ih2, ?_⟩
      rw [ih3, hnum', firstRefNamesFrom_cons_ref]
      congr 1
      rw [bumpRef_keys]
      by_cases hs : (alookup st.numbers (special_escape name)).isSome
      · rw [if_pos hs,
          if_pos ((alookup_isSome_iff st.numbers (special_escape name)).mp hs)]
      · rw [if_neg hs, if_neg (fun hm => hs
          ((alookup_isSome_iff st.numbers (special_escape name)).mpr hm))]
    | text s =>
      have hnum' : (fnStep path st (FEvent.text s)).1.numbers = st.numbers := hnum
      have htr' : (fnStep path st (FEvent.text s)).2.2 = none := htr
      simp only [htr', Option.toList_none, List.append_nil]
      obtain ⟨ih1, ih2, ih3⟩ := ih (fnStep path st (FEvent.text s)).1
        (out ++ (fnStep path st (FEvent.text s)).2.1.toList) tr
        (by rw [hnum']; exact H1) (by rw [hnum']; exact H2)
      refine ⟨ih1, ih2, ?_⟩
      rw [ih3, hnum']
      rfl
    | html s =>
      have hnum' : (fnStep path st (FEvent.html s)).1.numbers = st.numbers := hnum
      have htr' : (fnStep path st (FEvent.html s)).2.2 = none := htr
      simp only [htr', Option.toList_none, List.append_nil]
      obtain ⟨ih1, ih2, ih3⟩ := ih (fnStep path st (FEvent.html s)).1
        (out ++ (fnStep path st (FEvent.html s)).2.1.toList) tr
        (by rw [hnum']; exact H1) (by rw [hnum']; exact H2)
      refine ⟨ih1, ih2, ?_⟩
      rw [ih3, hnum']
      rfl
    | parEnd =>
      have hnum' : (fnStep path st FEvent.parEnd).1.numbers = st.numbers := hnum
      have htr' : (fnStep path st FEvent.parEnd).2.2 = none := htr
      simp only [htr', Option.toList_none, List.append_nil]
      obtain ⟨ih1, ih2, ih3⟩ := ih (fnStep path st FEvent.parEnd).1
        (out ++ (fnStep path st FEvent.parEnd).2.1.toList) tr
        (by rw [hnum']; exact H1) (by rw [hnum']; exact H2)
      refine ⟨ih1, ih2, ?_⟩
      rw [ih3, hnum']
      rfl
    | codeStart info =>
      have hnum' : (fnStep path st (FEvent.codeStart info)).1.numbers = st.numbers := hnum
      have htr' : (fnStep path st (FEvent.codeStart info)).2.2 = none := htr
      simp only [htr', Option.toList_none, List.append_nil]
      obtain ⟨ih1, ih2, ih3⟩ := ih (fnStep path st (FEvent.codeStart info)).1
        (out ++ (fnStep path st (FEvent.codeStart info)).2.1.toList) tr
        (by rw [hnum']; exact H1) (by rw [hnum']; exact H2)
      refine ⟨ih1, ih2, ?_⟩
      rw [ih3, hnum']
      rfl
    | fnDefStart name =>
      have hnum' : (fnStep path st (FEvent.fnDefStart name)).1.numbers = st.numbers := hnum
      have htr' : (fnStep path st (FEvent.fnDefStart name)).2.2 = none := htr
      simp only [htr', Option.toList_none, List.append_nil]
      obtain ⟨ih1, ih2, ih3⟩ := ih (fnStep path st (FEvent.fnDefStart name)).1
        (out ++ (fnStep path st (FEvent.fnDefStart name)).2.1.toList) tr
        (by rw [hnum']; exact H1) (by rw [hnum']; exact H2)
      refine ⟨ih1, ih2, ?_⟩
      rw [ih3, hnum']
      rfl
    | fnDefEnd =>
      have hnum' : (fnStep path st FEvent.fnDefEnd).1.numbers = st.numbers := hnum
      have htr' : (fnStep path st FEvent.fnDefEnd).2.2 = none := htr
      simp only [htr', Option.toList_none, List.append_nil]
      obtain ⟨ih1, ih2, ih3⟩ := ih (fnStep path st FEvent.fnDefEnd).1
        (out ++ (fnStep path st FEvent.fnDefEnd).2.1.toList) tr
        (by rw [hnum']; exact H1) (by rw [hnum']; exact H2)
      refine ⟨ih1, ih2, ?_⟩
      rw [ih3, hnum']
      rfl

/-- C4: after running the footnote pass, the `footnote_numbers` map
lists the escaped footnote names in first-reference order, the `k`-th
first-referenced name carrying display number `k + 1` (so numbers are
assigned at the first reference, in first-reference order starting at
1); every reference in the stream (the trace pairs each reference with
the number interpolated into its rendered `refHtml` fragment) displays
the number stored for its name, so later references to the same name
render with the same display number. -/
theorem spec_C4_theorem (path : Option String) (evs : List FEvent) :
    (fnRun path evs).state.numbers.map (fun e => e.1) = firstRefNames evs ∧
    (∀ k e, (fnRun path evs).state.numbers.get? k = some e → e.2.1 = k + 1) ∧
    (∀ x ∈ (fnRun path evs).trace,
      ∃ c, alookup (fnRun path evs).state.numbers x.1 = some (x.2.1, c)) ∧
    (∀ x ∈ (fnRun path evs).trace, ∀ y ∈ (fnRun path evs).trace,
      x.1 = y.1 → x.2.1 = y.2.1) := by
  have H1 : ∀ k e, (initFnState.numbers).get? k = some e → e.2.1 = k + 1 := by
    intro k e h
    simp [initFnState] at h
  have H2 : ∀ x ∈ ([] : List (String × Nat × Nat)),
      ∃ c, alookup initFnState.numbers x.1 = some (x.2.1, c) := by
    intro x hx
    exact absurd hx (List.not_mem_nil x)
  obtain ⟨h1, h2, h3⟩ := fnRunFrom_numbers path evs initFnState [] [] H1 H2
  refine ⟨?_, h1, h2, ?_⟩
  · rw [show fnRun path evs = fnRunFrom path ⟨initFnState, [], []⟩ evs from rfl]
    rw [h3]
    rfl
  · intro x hx y hy hxy
    obtain ⟨cx, hcx⟩ := h2 x hx
    obtain ⟨cy, hcy⟩ := h2 y hy
    rw [hxy] at hcx
    rw [hcx] at hcy
    have hinj : (x.2.1, cx) = (y.2.1, cy) := Option.some.inj hcy
    simp only [Prod.mk.injEq] at hinj
    exact hinj.1

/-- Witness for C4 on the stream `a, b, a` of footnote references. -/
theorem spec_C4_witness :
    (fnRun none [FEvent.fnRef "a", FEvent.fnRef "b", FEvent.fnRef "a"]).state.numbers.map
        (fun e => e.1) =
      firstRefNames [FEvent.fnRef "a", FEvent.fnRef "b", FEvent.fnRef "a"] ∧
    (("a", 1, 2) : String × Nat × Nat).2.1 = 0 + 1 ∧
    (∃ c, alookup (fnRun none
        [FEvent.fnRef "a", FEvent.fnRef "b", FEvent.fnRef "a"]).state.numbers
        "a" = some (1, c)) :=
  ⟨(spec_C4_theorem none [FEvent.fnRef "a", FEvent.fnRef "b", FEvent.fnRef "a"]).1,
   (spec_C4_theorem none
      [FEvent.fnRef "a", FEvent.fnRef "b", FEvent.fnRef "a"]).2.1 0 ("a", 1, 2)
      (by decide),
   (spec_C4_theorem none
      [FEvent.fnRef "a", FEvent.fnRef "b", FEvent.fnRef "a"]).2.2.1 ("a", 1, 1)
      (by decide)⟩

theorem fnStep_defs_pres (path : Option String) (st : FnState) (e : FEvent)
    (nm : String) (v : List FEvent) (h : alookup st.defs nm = some v) :
    alookup (fnStep path st e).1.defs nm = some v := by
  cases e <;> simp only [fnStep] <;> (try split) <;> try exact h
  exact alookup_append_left _ h

theorem fnRunFrom_defs_pres (path : Option String) :
    ∀ (evs : List FEvent) (acc : FnRun) (nm : String) (v : List FEvent),
    alookup acc.state.defs nm = some v →
    alookup (fnRunFrom path acc evs).state.defs nm = some v := by
  intro evs
  induction evs with
  | nil => intro acc nm v h; exact h
  | cons e tl ih =>
    intro acc nm v h
    rw [show fnRunFrom path acc (e :: tl) = fnRunFrom path
      ⟨(fnStep path acc.state e).1,
        acc.out ++ (fnStep path acc.state e).2.1.toList,
        acc.trace ++ (fnStep path acc.state e).2.2.toList⟩ tl from rfl]
    exact ih _ nm v (fnStep_defs_pres path acc.state e nm v h)

theorem fnStep_dup_defs (path : Option String) (st : FnState)
    (h : (alookup st.defs st.inName).isSome = true) :
    (fnStep path st FEvent.fnDefEnd).1.defs = st.defs ∧
    (fnStep path st FEvent.fnDefEnd).1.warnings =
      st.warnings ++ [dupMsg path st.inName] := by
  simp only [fnStep]
  rw [if_pos h]
  exact ⟨rfl, rfl⟩

theorem fnStep_first_insert (path : Option String) (st : FnState)
    (h : alookup st.defs st.inName = none) :
    (fnStep path st FEvent.fnDefEnd).1.defs =
      st.defs ++ [(st.inName, st.inBuf)] := by
  simp only [fnStep]
  rw [if_neg (by simp [h])]

theorem fnStep_defs_nodup (path : Option String) (st : FnState) (e : FEvent)
    (h : (st.defs.map (fun d => d.1)).Nodup) :
    ((fnStep path st e).1.defs.map (fun d => d.1)).Nodup := by
  cases e <;> simp only [fnStep] <;> (try split) <;> try exact h
  case fnDefEnd hns =>
    rw [List.map_append, List.nodup_append]
    refine ⟨h, List.nodup_singleton _, ?_⟩
    intro a ha hb
    simp only [List.map_cons, List.map_nil, List.mem_singleton] at hb
    subst hb
    have : (alookup st.defs st.inName).isSome = true :=
      (alookup_isSome_iff st.defs st.inName).mpr ha
    exact hns this

theorem fnRunFrom_defs_nodup (path : Option String) :
    ∀ (evs : List FEvent) (acc : FnRun),
    ((acc.state.defs.map (fun d => d.1)).Nodup) →
    ((fnRunFrom path acc evs).state.defs.map (fun d => d.1)).Nodup := by
  intro evs
  induction evs with
  | nil => intro acc h; exact h
  | cons e tl ih =>
    intro acc h
    rw [show fnRunFrom path acc (e :: tl) = fnRunFrom path
      ⟨(fnStep path acc.state e).1,
        acc.out ++ (fnStep path acc.state e).2.1.toList,
        acc.trace ++ (fnStep path acc.state e).2.2.toList⟩ tl from rfl]
    exact ih _ (fnStep_defs_nodup path acc.state e h)

/-- C5: closing a footnote definition whose (escaped) name is already
stored leaves the stored definitions unchanged and emits exactly the
duplicate-definition diagnostic (later duplicates are discarded, first
one wins); closing a definition with a fresh name stores the buffered
body; a stored definition is never altered by any later event; and the
stored definition names stay pairwise distinct. -/
theorem spec_C5_theorem :
    (∀ (path : Option String) (st : FnState),
      (alookup st.defs st.inName).isSome = true →
      (fnStep path st FEvent.fnDefEnd).1.defs = st.defs ∧
      (fnStep path st FEvent.fnDefEnd).1.warnings =
        st.warnings ++ [dupMsg path st.inName]) ∧
    (∀ (path : Option String) (st : FnState),
      alookup st.defs st.inName = none →
      (fnStep path st FEvent.fnDefEnd).1.defs =
        st.defs ++ [(st.inName, st.inBuf)]) ∧
    (∀ (path : Option String) (evs : List FEvent) (acc : FnRun) (nm : String)
      (v : List FEvent), alookup acc.state.defs nm = some v →
      alookup (fnRunFrom path acc evs).state.defs nm = some v) ∧
    (∀ (path : Option String) (evs : List FEvent),
      ((fnRun path evs).state.defs.map (fun d => d.1)).Nodup) := by
  refine ⟨fnStep_dup_defs, fnStep_first_insert, fnRunFrom_defs_pres, ?_⟩
  intro path evs
  exact fnRunFrom_defs_nodup path evs ⟨initFnState, [], []⟩ (by simp [initFnState])

/-- Witness for C5: a duplicate definition of `a` is discarded with a
diagnostic while the first body survives the rest of the stream. -/
theorem spec_C5_witness :
    (fnStep (some "p.md")
        ⟨[], [("a", [FEvent.text "first"])], "a", [FEvent.text "second"], []⟩
        FEvent.fnDefEnd).1.defs = [("a", [FEvent.text "first"])] ∧
    (fnStep (some "p.md")
        ⟨[], [("a", [FEvent.text "first"])], "a", [FEvent.text "second"], []⟩
        FEvent.fnDefEnd).1.warnings = [] ++ [dupMsg (some "p.md") "a"] ∧
    alookup (fnRunFrom none
        ⟨⟨[], [("a", [FEvent.text "first"])], "", [], []⟩, [], []⟩
        [FEvent.text "x", FEvent.fnDefStart "a", FEvent.text "second",
          FEvent.fnDefEnd]).state.defs "a" = some [FEvent.text "first"] :=
  ⟨(spec_C5_theorem.1 (some "p.md") _ (by decide)).1,
   (spec_C5_theorem.1 (some "p.md") _ (by decide)).2,
   spec_C5_theorem.2.2.1 none _ _ "a" [FEvent.text "first"] (by decide)⟩

theorem retainReferenced_fst (path : Option String)
    (numbers : List (String × Nat × Nat)) (defs : List (String × List FEvent)) :
    (retainReferenced path numbers defs).1 =
      defs.filter (fun d => (alookup numbers d.1).isSome) := by
  induction defs with
  | nil => rfl
  | cons d tl ih =>
    rw [retainReferenced, List.filter_cons]
    cases hs : (alookup numbers d.1).isSome with
    | true => simp [hs, ih]
    | false => simp [hs, ih]

theorem retainReferenced_snd (path : Option String)
    (numbers : List (String × Nat × Nat)) (defs : List (String × List FEvent)) :
    (retainReferenced path numbers defs).2 =
      (defs.filter (fun d => (alookup numbers d.1).isNone)).map
        (fun d => unrefMsg path d.1) := by
  induction defs with
  | nil => rfl
  | cons d tl ih =>
    rw [retainReferenced, List.filter_cons]
    cases hs : (alookup numbers d.1).isSome with
    | true =>
      have hn : (alookup numbers d.1).isNone = false := by
        rcases ho : alookup numbers d.1 with _ | v
        · rw [ho] at hs; simp at hs
        · simp
      simp [hs, hn, ih]
    | false =>
      have hn : (alookup numbers d.1).isNone = true := by
        rcases ho : alookup numbers d.1 with _ | v
        · simp
        · rw [ho] at hs; simp at hs
      simp [hs, hn, ih]

theorem appendixDefs_mem (path : Option String)
    (defs : List (String × List FEvent)) (numbers : List (String × Nat × Nat))
    (nm : String) :
    nm ∈ (appendixDefs path defs numbers).map (fun d => d.1) ↔
      nm ∈ defs.map (fun d => d.1) ∧ (alookup numbers nm).isSome = true := by
  have hperm := List.perm_insertionSort
    (fun a b => numKey numbers a ≤ numKey numbers b)
    (retainReferenced path numbers defs).1
  unfold appendixDefs
  rw [List.Perm.mem_iff (List.Perm.map _ hperm), retainReferenced_fst]
  simp only [List.mem_map, List.mem_filter]
  constructor
  · rintro ⟨d, ⟨hd, hs⟩, rfl⟩
    exact ⟨⟨d, hd, rfl⟩, hs⟩
  · rintro ⟨⟨d, hd, rfl⟩, hs⟩
    exact ⟨d, ⟨hd, hs⟩, rfl⟩

theorem appendixDefs_sorted (path : Option String)
    (defs : List (String × List FEvent)) (numbers : List (String × Nat × Nat)) :
    List.Pairwise (fun a b => numKey numbers a ≤ numKey numbers b)
      (appendixDefs path defs numbers) := by
  haveI : IsTotal (String × List FEvent)
      (fun a b => numKey numbers a ≤ numKey numbers b) :=
    ⟨fun a b => Nat.le_total _ _⟩
  haveI : IsTrans (String × List FEvent)
      (fun a b => numKey numbers a ≤ numKey numbers b) :=
    ⟨fun a b c hab hbc => Nat.le_trans hab hbc⟩
  exact List.sorted_insertionSort _ _

theorem mem_firstRefNamesFrom (x : String) :
    ∀ (evs : List FEvent) (acc : List String),
    x ∈ firstRefNamesFrom acc evs ↔ x ∈ acc ∨ x ∈ refNames evs := by
  intro evs
  induction evs with
  | nil =>
    intro acc
    simp [firstRefNamesFrom, refNames]
  | cons e tl ih =>
    intro acc
    cases e with
    | fnRef name =>
      rw [firstRefNamesFrom_cons_ref, ih]
      have hr : refNames (FEvent.fnRef name :: tl) =
          special_escape name :: refNames tl := rfl
      rw [hr]
      by_cases hmem : special_escape name ∈ acc
      · rw [if_pos hmem]
        simp only [List.mem_cons]
        constructor
        · rintro (h | h)
          · exact Or.inl h
          · exact Or.inr (Or.inr h)
        · rintro (h | rfl | h)
          · exact Or.inl h
          · exact Or.inl hmem
          · exact Or.inr h
      · rw [if_neg hmem]
        simp only [List.mem_append, List.mem_cons, List.not_mem_nil, or_false]
        tauto
    | text s => exact ih acc
    | html s => exact ih acc
    | parEnd => exact ih acc
    | codeStart info => exact ih acc
    | fnDefStart name => exact ih acc
    | fnDefEnd => exact ih acc

theorem fnRun_numbers_mem (path : Option String) (evs : List FEvent)
    (nm : String) :
    (alookup (fnRun path evs).state.numbers nm).isSome = true ↔
      nm ∈ refNames evs := by
  have H1 : ∀ k e, (initFnState.numbers).get? k = some e → e.2.1 = k + 1 := by
    intro k e h
    simp [initFnState] at h
  have H2 : ∀ x ∈ ([] : List (String × Nat × Nat)),
      ∃ c, alookup initFnState.numbers x.1 = some (x.2.1, c) := by
    intro x hx
    exact absurd hx (List.not_mem_nil x)
  obtain ⟨_, _, h3⟩ := fnRunFrom_numbers path evs initFnState [] [] H1 H2
  rw [alookup_isSome_iff]
  rw [show fnRun path evs = fnRunFrom path ⟨initFnState, [], []⟩ evs from rfl]
  rw [h3]
  rw [show (initFnState.numbers.map (fun e => e.1)) = ([] : List String) from rfl]
  rw [mem_firstRefNamesFrom]
  simp

/-- C6: the appendix definition list contains exactly the stored
definitions whose name is in the numbers map, each dropped definition
yields exactly one unreferenced-footnote diagnostic, the appendix is
ordered by display number (not declaration order), and — after a full
run of the footnote pass — a name is in the numbers map exactly when
the stream contained a reference to it. -/
theorem spec_C6_theorem :
    (∀ (path : Option String) (defs : List (String × List FEvent))
      (numbers : List (String × Nat × Nat)) (nm : String),
      nm ∈ (appendixDefs path defs numbers).map (fun d => d.1) ↔
        nm ∈ defs.map (fun d => d.1) ∧ (alookup numbers nm).isSome = true) ∧
    (∀ (path : Option String) (defs : List (String × List FEvent))
      (numbers : List (String × Nat × Nat)),
      List.Pairwise (fun a b => numKey numbers a ≤ numKey numbers b)
        (appendixDefs path defs numbers)) ∧
    (∀ (path : Option String) (defs : List (String × List FEvent))
      (numbers : List (String × Nat × Nat)),
      (add_footnote_defs path defs numbers).2 =
        (defs.filter (fun d => (alookup numbers d.1).isNone)).map
          (fun d => unrefMsg path d.1)) ∧
    (∀ (path : Option String) (evs : List FEvent) (nm : String),
      (alookup (fnRun path evs).state.numbers nm).isSome = true ↔
        nm ∈ refNames evs) := by
  refine ⟨appendixDefs_mem, appendixDefs_sorted, ?_, fnRun_numbers_mem⟩
  intro path defs numbers
  show (retainReferenced path numbers defs).2 = _
  exact retainReferenced_snd path numbers defs

theorem fnStep_core (p1 p2 : Option String) (st1 st2 : FnState) (e : FEvent)
    (hc : sameCore st1 st2) :
    sameCore (fnStep p1 st1 e).1 (fnStep p2 st2 e).1 ∧
    (fnStep p1 st1 e).2 = (fnStep p2 st2 e).2 := by
  obtain ⟨h1, h2, h3, h4⟩ := hc
  cases e <;>
    simp only [fnStep, sameCore, h1, h2, h3, h4] <;>
    (try split) <;>
    simp [h1, h2, h3, h4]

theorem fnRunFrom_core (p1 p2 : Option String) :
    ∀ (evs : List FEvent) (st1 st2 : FnState) (out : List FEvent)
      (tr : List (String × Nat × Nat)), sameCore st1 st2 →
    (fnRunFrom p1 ⟨st1, out, tr⟩ evs).out =
      (fnRunFrom p2 ⟨st2, out, tr⟩ evs).out ∧
    (fnRunFrom p1 ⟨st1, out, tr⟩ evs).trace =
      (fnRunFrom p2 ⟨st2, out, tr⟩ evs).trace := by
  intro evs
  induction evs with
  | nil => intro st1 st2 out tr _; exact ⟨rfl, rfl⟩
  | cons e tl ih =>
    intro st1 st2 out tr hc
    obtain ⟨hcore, hout⟩ := fnStep_core p1 p2 st1 st2 e hc
    rw [fnRunFrom_cons, fnRunFrom_cons]
    simp only [hout]
    exact ih (fnStep p1 st1 e).1 (fnStep p2 st2 e).1
      (out ++ (fnStep p2 st2 e).2.1.toList)
      (tr ++ (fnStep p2 st2 e).2.2.toList) hcore

theorem pageIdPfx_some (p : String) (h : ¬ pagePrintId p = "") :
    pageIdPfx (some p) = pagePrintId p ++ "-" := by
  show (if pagePrintId p = "" then "" else pagePrintId p ++ "-") = _
  rw [if_neg h]

/-- C10: the event stream emitted by the footnote pass is identical in
print mode and standalone mode (the page path flows only into warning
messages), so the superscript reference fragment — whose `id`
attribute is exactly `fr-<name>-<n>`, never page-id-prefixed — is the
same in both modes; while a back-link appended to a definition in
print mode targets `#<page-id>-fr-<name>-<n>`.  In standalone mode the
back-link prefix is empty. -/
theorem spec_C10_theorem :
    (∀ (p : String) (evs : List FEvent),
      (fnRun (some p) evs).out = (fnRun none evs).out ∧
      (fnRun (some p) evs).trace = (fnRun none evs).trace) ∧
    (∀ (nm : String) (c n : Nat),
      refHtml nm c n = "<sup class=\"footnote-reference\" id=\"" ++
        refAnchorId nm c ++ "\"><a href=\"#footnote-" ++ nm ++ "\">" ++
        toString n ++ "</a></sup>") ∧
    (∀ (p nm : String) (usage : Nat), ¬ pagePrintId p = "" →
      backlinkHtml (pageIdPfx (some p)) nm usage =
        " <a href=\"#" ++ pagePrintId p ++ "-" ++ refAnchorId nm usage ++
        "\">↩" ++ nthStr usage ++ "</a>") ∧
    pageIdPfx none = "" := by
  refine ⟨?_, ?_, ?_, rfl⟩
  · intro p evs
    exact fnRunFrom_core (some p) none evs initFnState initFnState [] []
      ⟨rfl, rfl, rfl, rfl⟩
  · intro nm c n
    unfold refHtml refAnchorId
    apply String.ext
    simp [String.data_append]
  · intro p nm usage h
    rw [pageIdPfx_some p h]
    unfold backlinkHtml refAnchorId
    apply String.ext
    simp [String.data_append]

/-- Witness for C10 on the page `chapter/sub.md` and footnote `a`. -/
theorem spec_C10_witness :
    backlinkHtml (pageIdPfx (some "chapter/sub.md")) "a" 1 =
      " <a href=\"#" ++ pagePrintId "chapter/sub.md" ++ "-" ++
      refAnchorId "a" 1 ++ "\">↩" ++ nthStr 1 ++ "</a>" :=
  spec_C10_theorem.2.2.1 "chapter/sub.md" "a" 1 (by decide)

/-- Witness for C3 at concrete scheme links and an absolute image. -/
theorem spec_C3_witness :
    fix_a_links "https://example.com/" (some "chapter/sub.md") [] =
      "https://example.com/" ∧
    fix_a_links "https://example.com/" none [] = "https://example.com/" ∧
    fix_resource_links "https://img.example/i.png" none =
      "https://img.example/i.png" ∧
    fix_resource_links "/abs/i.png" (some "chapter/sub.md") = "/abs/i.png" :=
  ⟨spec_C3_theorem.1 _ _ _ (by decide), spec_C3_theorem.1 _ _ _ (by decide),
   spec_C3_theorem.2 _ _ (Or.inl (by decide)),
   spec_C3_theorem.2 _ _ (Or.inr (by decide))⟩

end MdBook
